import Mathlib

/-! HTTPPipeline: validation, reload and per-request execution.

A shallow embedding of `pkg/object/httppipeline/httppipeline.go`.

* Go `map[string]string` values are association lists read with `List.lookup`;
  ranging over a map visits the bindings that `lookup` can see.
* Go `int` indexes are `Int`; slice lengths are `Nat`.
* `panic` inside `Validate` is recovered into an error value, so `Validate`
  returns `Option ValidateError` (`none` is Go's `nil`).
* Code that lives outside the translated file (the YAML library, the filter
  spec decoder, the HTTP template constructor, the filter registry) is taken
  as a parameter.
-/

namespace HTTPPipeline

/-! ## Data model -/

/-- LabelEND is the built-in label for jumping of flow. -/
def LabelEND : String := "END"

/-- Go `map[string]string`. -/
abbrev StrMap := List (String × String)

/-- The bindings a `range` over the map visits: for every key the value that
`lookup` returns (a shadowed pair is not part of the map). -/
def StrMap.entries (m : StrMap) : List (String × String) :=
  m.filter (fun kv => m.lookup kv.1 == some kv.2)

/-- Flow controls the flow of pipeline. -/
structure Flow where
  Filter : String
  JumpIf : StrMap
  deriving DecidableEq

/-- Spec describes the HTTPPipeline; `Raw` is Go's `map[string]interface{}`. -/
structure Spec (Raw : Type) where
  Flow : List Flow
  Filters : List Raw

/-- FilterMetaSpec is the name/kind header of a filter entry. -/
structure FilterMetaSpec where
  Name : String
  Kind : String
  deriving DecidableEq

/-- Modelled from the spec: the registered filter prototype (the `Filter`
interface is declared outside the translated file); only `Kind()` and
`Results()` of a prototype are read by the pipeline. -/
structure RootFilter where
  Kind : String
  Results : List String
  deriving DecidableEq

/-- Modelled from the spec: `FilterSpec` (declared outside the translated file)
is the parsed descriptor of one filter: its meta (`Name()`, `Kind()`), its raw
body (`YAMLConfig()`) and its prototype (`RootFilter()`). -/
structure FilterSpec where
  meta : FilterMetaSpec
  YAMLConfig : String
  RootFilter : RootFilter
  deriving DecidableEq

def FilterSpec.Name (s : FilterSpec) : String := s.meta.Name

def FilterSpec.Kind (s : FilterSpec) : String := s.meta.Kind

/-- The `context.FilterBuff` pair handed to the template constructor. -/
structure FilterBuff where
  Name : String
  Buff : String
  deriving DecidableEq

/-- The causes `Validate` panics with. -/
inductive Cause where
  | yaml (msg : String)
  | filterSpec (msg : String)
  | conflictName (name : String)
  | invalidTemplate (msg : String)
  | repeatedFilter (name : String)
  | filterNotFound (name : String)
  | resultNotIn (filter result : String) (expected : List String)
  | labelNotFound (filter label : String)
  deriving DecidableEq

/-- The non-nil errors of `Validate`: the early return, and a recovered panic
tagged with the section (`filters` or `flow`) that was being checked. -/
inductive ValidateError where
  | filtersRequired
  | inFilters (c : Cause)
  | inFlow (c : Cause)
  deriving DecidableEq

/-- The collaborators of `Validate` and `reload` that are not part of the
translated file. `Obj` is Go's `interface{}` as produced by the YAML decoder. -/
structure Env (Obj Raw : Type) where
  /-- `yaml.Unmarshal(config, &whole)` for `whole : map[string]interface{}`. -/
  unmarshalWhole : String → Except String (String → Option Obj)
  /-- `yaml.Marshal` of the `filters` object. -/
  marshalObj : Obj → Except String String
  /-- `yaml.Unmarshal(buff, &filters)` for `filters : []map[string]interface{}`. -/
  unmarshalFilters : String → Except String (List Raw)
  /-- `yaml.Marshal` of one filter entry. -/
  marshalRaw : Raw → Except String String
  /-- `yaml.Unmarshal(buff, meta)` for `meta : *FilterMetaSpec`. -/
  unmarshalMeta : String → Except String FilterMetaSpec
  /-- `newFilterSpecInternal`. -/
  newFilterSpecInternal : Raw → Except String FilterSpec
  /-- `context.NewHTTPTemplate`: the error it returns, if any. -/
  newHTTPTemplate : List FilterBuff → Option String
  /-- `filterRegistry`. -/
  filterRegistry : String → Option RootFilter

/-- Modelled from the spec: `stringtool.StrInSlice` (declared outside the
translated file) tells whether the string appears in the slice. -/
def StrInSlice (s : String) (l : List String) : Bool := l.contains s

/-- `FilterMetaSpec.validate`: the error message, `none` for `nil`. -/
def FilterMetaSpec.validate (m : FilterMetaSpec) : Option String :=
  if m.Name.length = 0 then some "filter name is required"
  else if m.Kind.length = 0 then some "filter kind is required"
  else if m.Name = LabelEND then some "can't use END(built-in label) for filter name"
  else none

/-! ## Validate -/

section Validate

variable {Obj Raw : Type}

/-- `extractFiltersData`: a failed unmarshal panics (`Except.error`), a missing
`filters` key yields `nil` (`none`). -/
def extractFiltersData (env : Env Obj Raw) (config : String) : Except String (Option Obj) :=
  match env.unmarshalWhole config with
  | .error e => .error e
  | .ok whole => .ok (whole "filters")

/-- The loop of `convertToFilterBuffs`: `rst[meta.Name] = buff`; a later entry
overwrites an earlier one, so it is put in front of the association list. -/
def convertLoop (env : Env Obj Raw) : List Raw → StrMap → Except String StrMap
  | [], rst => .ok rst
  | p :: ps, rst =>
    match env.marshalRaw p with
    | .error e => .error e
    | .ok buff =>
      match env.unmarshalMeta buff with
      | .error e => .error e
      | .ok m => convertLoop env ps ((m.Name, buff) :: rst)

/-- `convertToFilterBuffs`. -/
def convertToFilterBuffs (env : Env Obj Raw) (obj : Obj) : Except String StrMap :=
  match env.marshalObj obj with
  | .error e => .error e
  | .ok b =>
    match env.unmarshalFilters b with
    | .error e => .error e
    | .ok filters => convertLoop env filters []

/-- The first loop of `Validate` over `s.Filters`: decode each entry, reject a
name already in `filterSpecs`, collect the template buffers. `filterSpecs` is
the Go map built so far (latest binding first). -/
def filtersLoop (env : Env Obj Raw) (filterBuffs : StrMap) :
    List Raw → List (String × FilterSpec) → List FilterBuff →
    Except Cause (List (String × FilterSpec) × List FilterBuff)
  | [], filterSpecs, tbuffs => .ok (filterSpecs, tbuffs)
  | raw :: rest, filterSpecs, tbuffs =>
    match env.newFilterSpecInternal raw with
    | .error e => .error (.filterSpec e)
    | .ok spec =>
      if (filterSpecs.lookup spec.Name).isSome then .error (.conflictName spec.Name)
      else
        filtersLoop env filterBuffs rest ((spec.Name, spec) :: filterSpecs)
          (tbuffs ++ [⟨spec.Name, (filterBuffs.lookup spec.Name).getD ""⟩])

/-- The duplicate check of `Validate`: it ranges over the flow looking each
filter up in the set `filters`, and never adds anything to that set. -/
def repeatedLoop : List Flow → List String → Option Cause
  | [], _ => none
  | f :: rest, filters =>
    if filters.contains f.Filter then some (.repeatedFilter f.Filter)
    else repeatedLoop rest filters

/-- The loop over `f.JumpIf` inside the label check. Go leaves the order of a
map range open; the bindings are visited in list order here, which decides
only which of several panics is reported, not whether there is one. -/
def jumpIfLoop (f : Flow) (expectedResults : List String) (labelsValid : List String) :
    List (String × String) → Option Cause
  | [] => none
  | (result, label) :: rest =>
    if !StrInSlice result expectedResults then
      some (.resultNotIn f.Filter result expectedResults)
    else if !labelsValid.contains label then
      some (.labelNotFound f.Filter label)
    else jumpIfLoop f expectedResults labelsValid rest

/-- The label check of `Validate`, `for i := len(s.Flow) - 1; i >= 0; i--`:
the argument is the flow reversed, so its head is `s.Flow[i]`. -/
def labelsLoop (filterSpecs : List (String × FilterSpec)) :
    List Flow → List String → Option Cause
  | [], _ => none
  | f :: rest, labelsValid =>
    match filterSpecs.lookup f.Filter with
    | none => some (.filterNotFound f.Filter)
    | some spec =>
      match jumpIfLoop f spec.RootFilter.Results labelsValid f.JumpIf.entries with
      | some c => some c
      | none => labelsLoop filterSpecs rest (f.Filter :: labelsValid)

/-- `Spec.Validate`: `none` is `nil`. -/
def Spec.Validate (env : Env Obj Raw) (s : Spec Raw) (config : String) : Option ValidateError :=
  match extractFiltersData env config with
  | .error e => some (.inFilters (.yaml e))
  | .ok none => some .filtersRequired
  | .ok (some filtersData) =>
    match convertToFilterBuffs env filtersData with
    | .error e => some (.inFilters (.yaml e))
    | .ok filterBuffs =>
      match filtersLoop env filterBuffs s.Filters [] [] with
      | .error c => some (.inFilters c)
      | .ok (filterSpecs, templateFilterBuffs) =>
        match env.newHTTPTemplate templateFilterBuffs with
        | some e => some (.inFilters (.invalidTemplate e))
        | none =>
          match repeatedLoop s.Flow [] with
          | some c => some (.inFlow c)
          | none =>
            match labelsLoop filterSpecs s.Flow.reverse [LabelEND] with
            | some c => some (.inFlow c)
            | none => none

end Validate

/-! ## Runtime -/

/-- Modelled from the spec: a live filter instance (the `Filter` interface is
declared outside the translated file). `reflect.New` allocates it with a fresh
identity `id` and the concrete type of the prototype (`Kind`). -/
structure Instance where
  id : Nat
  Kind : String
  deriving DecidableEq

/-- The Go struct `runningFilter`. -/
structure RunningFilter where
  spec : FilterSpec
  jumpIf : StrMap
  rootFilter : RootFilter
  filter : Instance
  deriving DecidableEq

end HTTPPipeline

/-- HTTPPipeline is Object HTTPPipeline: the fields `reload` installs. -/
structure HTTPPipeline where
  runningFilters : List HTTPPipeline.RunningFilter
  ht : List HTTPPipeline.FilterBuff
  deriving DecidableEq

namespace HTTPPipeline

/-- `getRunningFilter`: the first running filter with that name, or `nil`. -/
def getRunningFilter (hp : HTTPPipeline) (name : String) : Option RunningFilter :=
  hp.runningFilters.find? (fun filter => filter.spec.Name == name)

/-! ### reload -/

/-- The errors `reload` panics with. -/
inductive ReloadError where
  | filterSpec (msg : String)
  | flowFilterNotFound (name : String)
  | kindNotFound (kind : String)
  | templateFailed (msg : String)
  deriving DecidableEq

/-- The calls `reload` makes on the instances it creates. -/
inductive Call where
  | Init (filter : Instance) (spec : FilterSpec)
  | Inherit (filter : Instance) (spec : FilterSpec) (previousInstance : Instance)
  deriving DecidableEq

section Reload

variable {Obj Raw : Type}

/-- The branch of `reload` for an empty flow: one running filter per entry of
`Filters`, in declaration order, with no jump table. -/
def specsOfFilters (env : Env Obj Raw) : List Raw → Except ReloadError (List (FilterSpec × StrMap))
  | [] => .ok []
  | raw :: rest =>
    match env.newFilterSpecInternal raw with
    | .error e => .error (.filterSpec e)
    | .ok spec =>
      match specsOfFilters env rest with
      | .error e => .error e
      | .ok l => .ok ((spec, []) :: l)

/-- The inner loop of `reload` for one flow entry: `spec` is assigned on every
iteration and the loop breaks on a name match; the second argument is the
value of the variable `spec` so far (`none` is `nil`). -/
def findSpec (env : Env Obj Raw) (name : String) :
    List Raw → Option FilterSpec → Except ReloadError (Option FilterSpec)
  | [], spec => .ok spec
  | raw :: rest, _ =>
    match env.newFilterSpecInternal raw with
    | .error e => .error (.filterSpec e)
    | .ok spec => if spec.Name = name then .ok (some spec) else findSpec env name rest (some spec)

/-- The branch of `reload` for a non-empty flow. -/
def specsOfFlow (env : Env Obj Raw) (filters : List Raw) :
    List Flow → Except ReloadError (List (FilterSpec × StrMap))
  | [] => .ok []
  | f :: rest =>
    match findSpec env f.Filter filters none with
    | .error e => .error e
    | .ok none => .error (.flowFilterNotFound f.Filter)
    | .ok (some spec) =>
      match specsOfFlow env filters rest with
      | .error e => .error e
      | .ok l => .ok ((spec, f.JumpIf) :: l)

/-- The first half of `reload`: the running filters before instantiation. -/
def buildRunningFilters (env : Env Obj Raw) (spec : Spec Raw) :
    Except ReloadError (List (FilterSpec × StrMap)) :=
  if spec.Flow.length = 0 then specsOfFilters env spec.Filters
  else specsOfFlow env spec.Filters spec.Flow

/-- The `prevInstance` that `reload` computes for a name. -/
def prevInstance (previousGeneration : Option HTTPPipeline) (name : String) : Option Instance :=
  match previousGeneration with
  | none => none
  | some prev =>
    match getRunningFilter prev name with
    | none => none
    | some runningFilter => some runningFilter.filter

/-- The filter name a call is made for (the name of the spec passed). -/
def Call.name : Call → String
  | .Init _ spec => spec.Name
  | .Inherit _ spec _ => spec.Name

/-- The call `reload` makes for a running filter: `Inherit` with the previous
generation's instance of that name when there is one, `Init` otherwise. -/
def callFor (previousGeneration : Option HTTPPipeline) (runningFilter : RunningFilter) : Call :=
  match prevInstance previousGeneration runningFilter.spec.Name with
  | none => .Init runningFilter.filter runningFilter.spec
  | some p => .Inherit runningFilter.filter runningFilter.spec p

/-- The second loop of `reload`: look the prototype up by kind, allocate a new
instance (identity `nextId`), `Init` or `Inherit` it. Returns the calls made so
far (also when a later kind is missing) and the completed running filters with
their template buffers. -/
def instantiate (env : Env Obj Raw) (previousGeneration : Option HTTPPipeline) :
    List (FilterSpec × StrMap) → Nat →
    List Call × Except ReloadError (List RunningFilter × List FilterBuff)
  | [], _ => ([], .ok ([], []))
  | (spec, jumpIf) :: rest, nextId =>
    match env.filterRegistry spec.Kind with
    | none => ([], .error (.kindNotFound spec.Kind))
    | some rootFilter =>
      let filter : Instance := ⟨nextId, rootFilter.Kind⟩
      let call :=
        match prevInstance previousGeneration spec.Name with
        | none => Call.Init filter spec
        | some p => Call.Inherit filter spec p
      let (calls, r) := instantiate env previousGeneration rest (nextId + 1)
      (call :: calls,
        match r with
        | .error e => .error e
        | .ok (rfs, buffs) =>
          .ok (⟨spec, jumpIf, rootFilter, filter⟩ :: rfs, ⟨spec.Name, spec.YAMLConfig⟩ :: buffs))

/-- `HTTPPipeline.reload` for `hp.spec = spec`: the calls made on filter
instances, and the new runtime (or the panic). `nextId` is the identity the
next allocated instance gets. -/
def reload (env : Env Obj Raw) (spec : Spec Raw) (previousGeneration : Option HTTPPipeline)
    (nextId : Nat) : List Call × Except ReloadError HTTPPipeline :=
  match buildRunningFilters env spec with
  | .error e => ([], .error e)
  | .ok pre =>
    match instantiate env previousGeneration pre nextId with
    | (calls, .error e) => (calls, .error e)
    | (calls, .ok (runningFilters, filterBuffs)) =>
      match env.newHTTPTemplate filterBuffs with
      | some e => (calls, .error (.templateFailed e))
      | none => (calls, .ok ⟨runningFilters, filterBuffs⟩)

end Reload

/-! ### getNextFilterIndex -/

/-- The scan `for index++; index < len(hp.runningFilters); index++`: the list
is the running filters from position `index` on. -/
def scanName (name : String) : List RunningFilter → Int → Int
  | [], _ => -1
  | f :: rest, index => if f.spec.Name = name then index else scanName name rest (index + 1)

/-- The condition under which `getNextFilterIndex` logs
`BUG: invalid result %s not in %v` for the filter it reads. -/
def invalidResultLogged (filter : RunningFilter) (result : String) : Bool :=
  !StrInSlice result filter.rootFilter.Results

/-- `HTTPPipeline.getNextFilterIndex`; `none` is the index-out-of-range panic
of `hp.runningFilters[index]`. -/
def getNextFilterIndex (hp : HTTPPipeline) (index : Int) (result : String) : Option Int :=
  if result = "" then some (index + 1)
  else if index < 0 then none
  else
    match hp.runningFilters[index.toNat]? with
    | none => none
    | some filter =>
      if filter.jumpIf.length = 0 then some (-1)
      else
        match filter.jumpIf.lookup result with
        | none => some (-1)
        | some name =>
          if name = LabelEND then some (hp.runningFilters.length : Int)
          else some (scanName name (hp.runningFilters.drop (index.toNat + 1)) (index + 1))

/-! ### Per-request execution -/

/-- FilterStat records the statistics of the running filter; `Duration` is a
Go `time.Duration` (nanoseconds). -/
structure FilterStat where
  Name : String
  Kind : String
  Result : String
  Duration : Int
  deriving DecidableEq

/-- Modelled from the spec: `stringtool.Cat` (declared outside the translated
file) concatenates its arguments. -/
def Cat (l : List String) : String := String.join l

/-- `FilterStat.log`; `durationString` is Go's `time.Duration.String`. -/
def FilterStat.log (durationString : Int → String) (ps : FilterStat) : String :=
  let result := ps.Result
  let result := if result ≠ "" then result ++ "," else result
  Cat [ps.Name, "(", result, durationString ps.Duration, ")"]

/-- `PipelineContext.log` over `ctx.FilterStats`. -/
def PipelineContext.log (durationString : Int → String) (FilterStats : List FilterStat) : String :=
  if FilterStats.length = 0 then "<empty>"
  else String.intercalate "->" (FilterStats.map (FilterStat.log durationString))

/-- Modelled from the spec: what a filter's `Handle(ctx)` does, as far as the
pipeline can observe it (filter implementations are outside the translated
file). It may return a result token, invoke the handler caller stored on the
request context with a token and go on with what that returns, or work on the
request state `σ` (which also stands for the filter's own state) for `elapsed`
nanoseconds. -/
inductive Prog (σ : Type) where
  | ret (result : String) : Prog σ
  | call (lastResult : String) (k : String → Prog σ) : Prog σ
  | act (f : σ → σ) (elapsed : Nat) (k : σ → Prog σ) : Prog σ

/-- What the request context and the pipeline context see happen, in order. -/
inductive Event where
  | SaveReqToTemplate (name : String)
  | Handle (filter : RunningFilter)
  | SaveRspToTemplate (name : String)
  deriving DecidableEq

/-- The mutable state of one `HTTPPipeline.Handle` execution: the closure
variable `filterIndex`, `pipeCtx.FilterStats`, the clock, the request state and
the log of events so far. -/
structure Run (σ : Type) where
  filterIndex : Int
  FilterStats : List FilterStat
  now : Int
  ctx : σ
  events : List Event

/-- Why the model of an execution stops without a result. -/
inductive Halt where
  | outOfFuel
  | indexOutOfRange
  deriving DecidableEq

/-- Run a filter's `Handle` with `callNext` as the handler caller. -/
def runProg {σ : Type} (callNext : String → Run σ → Except Halt (String × Run σ)) :
    Prog σ → Run σ → Except Halt (String × Run σ)
  | .ret result, s => .ok (result, s)
  | .call lastResult k, s =>
    match callNext lastResult s with
    | .error e => .error e
    | .ok (t, s1) => runProg callNext (k t) s1
  | .act f elapsed k, s =>
    let c := f s.ctx
    runProg callNext (k c) { s with ctx := c, now := s.now + elapsed }

/-- The closure `handle` of `HTTPPipeline.Handle`. `handleOf` gives the
behaviour of each live instance; the first argument bounds the nesting depth
of the model. The deferred `filterIndex = lastIndex` runs on every return. -/
def handle {σ : Type} (hp : HTTPPipeline) (handleOf : Instance → Prog σ) :
    Nat → String → Run σ → Except Halt (String × Run σ)
  | 0, _, _ => .error .outOfFuel
  | fuel + 1, lastResult, s =>
    let lastIndex := s.filterIndex
    match getNextFilterIndex hp s.filterIndex lastResult with
    | none => .error .indexOutOfRange
    | some filterIndex =>
      if filterIndex = hp.runningFilters.length then
        .ok ("", { s with filterIndex := lastIndex })
      else if filterIndex = -1 then
        .ok (lastResult, { s with filterIndex := lastIndex })
      else
        match hp.runningFilters[filterIndex.toNat]? with
        | none => .error .indexOutOfRange
        | some filter =>
          let name := filter.spec.Name
          let stat : FilterStat := ⟨name, filter.spec.Kind, "", 0⟩
          let slot := s.FilterStats.length
          let s1 : Run σ :=
            { s with
              filterIndex := filterIndex
              FilterStats := s.FilterStats ++ [stat]
              events := s.events ++ [.SaveReqToTemplate name, .Handle filter] }
          let startTime := s1.now
          match runProg (handle hp handleOf fuel) (handleOf filter.filter) s1 with
          | .error e => .error e
          | .ok (result, s2) =>
            let stat := { stat with Result := result, Duration := s2.now - startTime }
            .ok (result,
              { s2 with
                filterIndex := lastIndex
                FilterStats := s2.FilterStats.set slot stat
                events := s2.events ++ [.SaveRspToTemplate name] })

/-- What one `HTTPPipeline.Handle` execution leaves behind: the tag added to
the request, what the top-level `handle("")` returned, and the final state. -/
structure Outcome (σ : Type) where
  tag : String
  result : String
  final : Run σ

/-- `HTTPPipeline.Handle`: start with `filterIndex := -1`, call `handle("")`
once, tag the request with the summary of the stats. -/
def Handle {σ : Type} (hp : HTTPPipeline) (handleOf : Instance → Prog σ)
    (durationString : Int → String) (ctx : σ) (now : Int) : Except Halt (Outcome σ) :=
  match handle hp handleOf (hp.runningFilters.length + 1) "" ⟨-1, [], now, ctx, []⟩ with
  | .error e => .error e
  | .ok (result, s) =>
    .ok ⟨Cat ["pipeline: ", PipelineContext.log durationString s.FilterStats], result, s⟩

/-! ### Reading an execution -/

/-- The filter name of a `Handle` invocation event. -/
def Event.handled : Event → Option String
  | .Handle filter => some filter.spec.Name
  | _ => none

/-- The names of the filters whose `Handle` was invoked, in the order the
invocations started. -/
def handledNames (events : List Event) : List String :=
  events.filterMap Event.handled

/-- The names of the recorded stats, in list order. -/
def statNames (stats : List FilterStat) : List String :=
  stats.map FilterStat.Name

/-- How the state of an execution can differ after a handler-caller invocation
made in state `s`: the closure variable `filterIndex` is back at its value, and
the stats and the `Handle` invocations grew by the same names. -/
def Extends {σ : Type} (s t : Run σ) : Prop :=
  t.filterIndex = s.filterIndex ∧
    ∃ names : List String,
      statNames t.FilterStats = statNames s.FilterStats ++ names ∧
      handledNames t.events = handledNames s.events ++ names

/-- The rendering of one stat in the words of the specification:
`name(result,duration)`. -/
def renderAsSpecified (durationString : Int → String) (st : FilterStat) : String :=
  st.Name ++ "(" ++ st.Result ++ "," ++ durationString st.Duration ++ ")"

/-- The rendering of one stat with the comma only after a non-empty result:
`name(result,duration)`, and `name(duration)` for the empty token. -/
def renderCommaIfResult (durationString : Int → String) (st : FilterStat) : String :=
  if st.Result = "" then st.Name ++ "(" ++ durationString st.Duration ++ ")"
  else st.Name ++ "(" ++ st.Result ++ "," ++ durationString st.Duration ++ ")"

/-- The request tag in the words of the specification, for a given rendering
of one stat: `pipeline: ` followed by `<empty>` or by the stats joined with
`->`. -/
def tagOf (render : FilterStat → String) (stats : List FilterStat) : String :=
  "pipeline: " ++ (if stats = [] then "<empty>" else String.intercalate "->" (stats.map render))

/-- Follow a filter's `Handle` on request state `c` when each handler-caller
invocation it makes passes the token `R` and gets the empty token back:
the token `Handle` returns, or `none` if it passes another token. -/
def returnsUnder {σ : Type} (R : String) : Prog σ → σ → Option String
  | .ret t, _ => some t
  | .call r k, c => if r = R then returnsUnder R (k "") c else none
  | .act f _ k, c => returnsUnder R (k (f c)) (f c)

/-! ## Examples used as concrete inputs -/

namespace Ex

/-- A small environment: every config but the text `no-filters` has a
`filters` section, the buffers handed to the template constructor are empty,
a filter entry is a `(name, kind)` pair that decodes when it passes the meta
check, every template is accepted, and the one registered kind is `K`, which
declares the results `stop` and `fail`. -/
def env : Env (List (String × String)) (String × String) where
  unmarshalWhole := fun config =>
    .ok (fun key => if key = "filters" ∧ config ≠ "no-filters" then some [] else none)
  marshalObj := fun _ => .ok ""
  unmarshalFilters := fun _ => .ok []
  marshalRaw := fun raw => .ok raw.1
  unmarshalMeta := fun buff => .ok ⟨buff, ""⟩
  newFilterSpecInternal := fun raw =>
    match FilterMetaSpec.validate ⟨raw.1, raw.2⟩ with
    | some e => .error e
    | none => .ok ⟨⟨raw.1, raw.2⟩, "", ⟨raw.2, ["stop", "fail"]⟩⟩
  newHTTPTemplate := fun _ => none
  filterRegistry := fun kind => if kind = "K" then some ⟨"K", ["stop", "fail"]⟩ else none

/-- Flow `A {stop -> A}, B`: the first entry jumps to itself. -/
def selfJumpSpec : Spec (String × String) :=
  ⟨[⟨"A", [("stop", "A")]⟩, ⟨"B", []⟩], [("A", "K"), ("B", "K")]⟩

/-- Flow `A {stop -> B}, B`: a forward jump. -/
def forwardSpec : Spec (String × String) :=
  ⟨[⟨"A", [("stop", "B")]⟩, ⟨"B", []⟩], [("A", "K"), ("B", "K")]⟩

/-- The decoded filter spec of the entry `(name, "K")` under `env`. -/
def specK (name : String) : FilterSpec := ⟨⟨name, "K"⟩, "", ⟨"K", ["stop", "fail"]⟩⟩

/-- A running filter of kind `K` named `name` with the given jump table and
instance identity. -/
def rf (name : String) (jumpIf : StrMap) (id : Nat) : RunningFilter :=
  ⟨specK name, jumpIf, ⟨"K", ["stop", "fail"]⟩, ⟨id, "K"⟩⟩

/-- Running filters `A {fail -> C}, B, C`. -/
def jumpPipeline : HTTPPipeline :=
  ⟨[rf "A" [("fail", "C")] 0, rf "B" [] 1, rf "C" [] 2], []⟩

/-- Running filters `A {oops -> END}, B`, where `oops` is not a declared result
of `A` (its kind declares `stop` and `fail`). -/
def oopsPipeline : HTTPPipeline :=
  ⟨[rf "A" [("oops", "END")] 0, rf "B" [] 1], []⟩

/-- Running filters `A, B, C` without jump tables. -/
def linearPipeline : HTTPPipeline :=
  ⟨[rf "A" [] 0, rf "B" [] 1, rf "C" [] 2], []⟩

/-- Running filters `A {stop -> END}, B`. -/
def stopPipeline : HTTPPipeline :=
  ⟨[rf "A" [("stop", "END")] 0, rf "B" [] 1], []⟩

/-- Every filter succeeds and hands over to the next one: it invokes the
handler caller with the empty token and returns what that returns. -/
def passAll : Instance → Prog Unit :=
  fun _ => .call "" .ret

/-- The first instance returns `stop` from `Handle` without invoking the
handler caller; the others pass on. -/
def stopReturned : Instance → Prog Unit :=
  fun i => if i.id = 0 then .ret "stop" else .call "" .ret

/-- The first instance invokes the handler caller with `stop` and returns what
that returns; the others pass on. -/
def stopForwarded : Instance → Prog Unit :=
  fun i => if i.id = 0 then .call "stop" .ret else .call "" .ret

/-- The first instance invokes the handler caller with `stop`, drops what that
returns and returns `stop`; the others pass on. -/
def stopCalledAndReturned : Instance → Prog Unit :=
  fun i => if i.id = 0 then .call "stop" (fun _ => .ret "stop") else .call "" .ret

/-- Running filters `A, B` without jump tables. -/
def retryPipeline : HTTPPipeline :=
  ⟨[rf "A" [] 0, rf "B" [] 1], []⟩

/-- The first instance invokes the handler caller with the empty token twice
and returns what the second invocation returns; the others return the empty
token at once. -/
def callTwice : Instance → Prog Unit :=
  fun i => if i.id = 0 then .call "" (fun _ => .call "" .ret) else .ret ""

/-- The state in which `A` of `retryPipeline` makes its first invocation of the
handler caller: `filterIndex` is 0 and the stat of `A` is recorded. -/
def insideA : Run Unit :=
  ⟨0, [⟨"A", "K", "", 0⟩], 0, (), [.SaveReqToTemplate "A", .Handle (rf "A" [] 0)]⟩

/-- The state in which that first invocation returns: `B` has run. -/
def insideAAfterB : Run Unit :=
  ⟨0, [⟨"A", "K", "", 0⟩, ⟨"B", "K", "", 0⟩], 0, (),
    [.SaveReqToTemplate "A", .Handle (rf "A" [] 0), .SaveReqToTemplate "B",
      .Handle (rf "B" [] 1), .SaveRspToTemplate "B"]⟩

/-- A duration rendering that agrees with Go on the zero duration (`0s`), the
only duration of executions whose filters take no time. -/
def zeroDuration : Int → String :=
  fun _ => "0s"

/-- Flow `X {stop -> END}` over the single declared filter `A`. -/
def missingFlowSpec : Spec (String × String) :=
  ⟨[⟨"X", [("stop", "END")]⟩], [("A", "K")]⟩

/-- A previous generation running the single filter `A` (instance 0). -/
def generationA : HTTPPipeline :=
  ⟨[rf "A" [] 0], [⟨"A", ""⟩]⟩

/-- Flow `A, A` over the single declared filter `A`. -/
def repeatedSpec : Spec (String × String) :=
  ⟨[⟨"A", []⟩, ⟨"A", []⟩], [("A", "K")]⟩

end Ex

/-! ## Association lists and the label check -/

theorem lookup_mem {β : Type} : ∀ (l : List (String × β)) (k : String) (v : β),
    l.lookup k = some v → (k, v) ∈ l
  | [], _, _, h => by simp at h
  | (a, b) :: rest, k, v, h => by
    by_cases hk : k = a
    · subst hk
      simp [List.lookup] at h
      simp [h]
    · have hne : (k == a) = false := by simpa using hk
      simp [List.lookup, hne] at h
      exact List.mem_cons_of_mem _ (lookup_mem rest k v h)

theorem mem_entries (m : StrMap) (k v : String) :
    (k, v) ∈ m.entries ↔ m.lookup k = some v := by
  unfold StrMap.entries
  rw [List.mem_filter]
  constructor
  · intro h
    simpa using h.2
  · intro h
    exact ⟨lookup_mem m k v h, by simpa using h⟩

theorem jumpIfLoop_eq_none_iff (f : Flow) (expected labels : List String) :
    ∀ l : List (String × String),
      jumpIfLoop f expected labels l = none ↔ ∀ kv ∈ l, kv.1 ∈ expected ∧ kv.2 ∈ labels
  | [] => by simp [jumpIfLoop]
  | (r, lab) :: rest => by
    have ih := jumpIfLoop_eq_none_iff f expected labels rest
    by_cases h1 : r ∈ expected
    · by_cases h2 : lab ∈ labels
      · simp [jumpIfLoop, StrInSlice, h1, h2, ih]
      · simp [jumpIfLoop, StrInSlice, h1, h2]
    · simp [jumpIfLoop, StrInSlice, h1]

/-- What the label check accepts: every entry names a known filter, uses only
declared results as keys, and jumps to a label of the initial set or to the
filter of an entry visited before it. -/
theorem labelsLoop_eq_none_iff (filterSpecs : List (String × FilterSpec)) :
    ∀ (l : List Flow) (labels : List String),
      labelsLoop filterSpecs l labels = none ↔
        ∀ pre f post, l = pre ++ f :: post →
          ∃ spec, filterSpecs.lookup f.Filter = some spec ∧
            ∀ r lab, f.JumpIf.lookup r = some lab →
              r ∈ spec.RootFilter.Results ∧ (lab ∈ labels ∨ lab ∈ pre.map Flow.Filter)
  | [], labels => by
    simp [labelsLoop]
  | f0 :: rest, labels => by
    have ih := labelsLoop_eq_none_iff filterSpecs rest (f0.Filter :: labels)
    constructor
    · intro h pre f post hsplit
      unfold labelsLoop at h
      cases hlk : filterSpecs.lookup f0.Filter with
      | none => simp [hlk] at h
      | some spec0 =>
        simp only [hlk] at h
        cases hj : jumpIfLoop f0 spec0.RootFilter.Results labels f0.JumpIf.entries with
        | some c => simp [hj] at h
        | none =>
          simp only [hj] at h
          cases pre with
          | nil =>
            simp only [List.nil_append, List.cons.injEq] at hsplit
            obtain ⟨rfl, -⟩ := hsplit
            refine ⟨spec0, hlk, ?_⟩
            intro r lab hr
            have := (jumpIfLoop_eq_none_iff _ _ _ _).1 hj (r, lab) ((mem_entries _ _ _).2 hr)
            exact ⟨this.1, Or.inl this.2⟩
          | cons p pre1 =>
            simp only [List.cons_append, List.cons.injEq] at hsplit
            obtain ⟨rfl, hrest⟩ := hsplit
            obtain ⟨spec, hs, hall⟩ := ih.1 h pre1 f post hrest
            refine ⟨spec, hs, ?_⟩
            intro r lab hr
            obtain ⟨h1, h2⟩ := hall r lab hr
            refine ⟨h1, ?_⟩
            rcases h2 with h2 | h2
            · rcases List.mem_cons.1 h2 with h3 | h3
              · exact Or.inr (by simp [h3])
              · exact Or.inl h3
            · exact Or.inr (by simp only [List.map_cons]; exact List.mem_cons_of_mem _ h2)
    · intro h
      obtain ⟨spec0, hlk, hall0⟩ := h [] f0 rest rfl
      unfold labelsLoop
      simp only [hlk]
      have hj : jumpIfLoop f0 spec0.RootFilter.Results labels f0.JumpIf.entries = none := by
        rw [jumpIfLoop_eq_none_iff]
        intro kv hkv
        have := hall0 kv.1 kv.2 ((mem_entries _ _ _).1 hkv)
        refine ⟨this.1, ?_⟩
        rcases this.2 with h2 | h2
        · exact h2
        · simp at h2
      simp only [hj]
      rw [ih]
      intro pre f post hsplit
      obtain ⟨spec, hs, hall⟩ := h (f0 :: pre) f post (by simp [hsplit])
      refine ⟨spec, hs, ?_⟩
      intro r lab hr
      obtain ⟨h1, h2⟩ := hall r lab hr
      refine ⟨h1, ?_⟩
      rcases h2 with h2 | h2
      · exact Or.inl (List.mem_cons_of_mem _ h2)
      · simp only [List.map_cons, List.mem_cons] at h2
        rcases h2 with h2 | h2
        · exact Or.inl (by simp [h2])
        · exact Or.inr h2

theorem reverse_split_at {α : Type} (l : List α) (i : Nat) (a : α) (h : l[i]? = some a) :
    l.reverse = (l.drop (i + 1)).reverse ++ a :: (l.take i).reverse := by
  have hlt : i < l.length := by
    by_contra hc
    rw [List.getElem?_eq_none (by omega)] at h
    exact absurd h (by simp)
  have hget : l[i] = a := by
    rw [List.getElem?_eq_getElem hlt] at h
    exact Option.some.inj h
  have hl : l = l.take i ++ a :: l.drop (i + 1) := by
    conv_lhs => rw [← List.take_append_drop i l]
    rw [List.drop_eq_getElem_cons hlt, hget]
  conv_lhs => rw [hl]
  simp

theorem mem_drop_succ_iff {α : Type} (l : List α) (i : Nat) (a : α) :
    a ∈ l.drop (i + 1) ↔ ∃ j, i < j ∧ l[j]? = some a := by
  constructor
  · intro h
    obtain ⟨k, hk, hka⟩ := List.getElem_of_mem h
    refine ⟨i + 1 + k, by omega, ?_⟩
    rw [List.getElem_drop] at hka
    rw [← hka]
    exact List.getElem?_eq_getElem _
  · rintro ⟨j, hj, hja⟩
    have hlt : j < l.length := by
      by_contra hc
      rw [List.getElem?_eq_none (by omega)] at hja
      exact absurd hja (by simp)
    rw [List.getElem?_eq_getElem hlt] at hja
    have hja := Option.some.inj hja
    rw [List.mem_iff_getElem]
    refine ⟨j - (i + 1), by simp; omega, ?_⟩
    rw [List.getElem_drop]
    have : i + 1 + (j - (i + 1)) = j := by omega
    simp only [this]
    exact hja

theorem repeatedLoop_nil : ∀ l : List Flow, repeatedLoop l [] = none
  | [] => rfl
  | f :: rest => by simp [repeatedLoop, repeatedLoop_nil rest]

section ValidateFacts

variable {Obj Raw : Type}

/-- `Validate` returns `nil` exactly when every stage before the label check
succeeds and the label check accepts the reversed flow. -/
theorem validate_eq_none_iff (env : Env Obj Raw) (s : Spec Raw) (config : String) :
    Spec.Validate env s config = none ↔
      ∃ filtersData filterBuffs filterSpecs templateFilterBuffs,
        extractFiltersData env config = .ok (some filtersData) ∧
        convertToFilterBuffs env filtersData = .ok filterBuffs ∧
        filtersLoop env filterBuffs s.Filters [] [] = .ok (filterSpecs, templateFilterBuffs) ∧
        env.newHTTPTemplate templateFilterBuffs = none ∧
        labelsLoop filterSpecs s.Flow.reverse [LabelEND] = none := by
  unfold Spec.Validate
  cases h1 : extractFiltersData env config with
  | error e => simp
  | ok od =>
    cases od with
    | none => simp
    | some d =>
      cases h2 : convertToFilterBuffs env d with
      | error e => simp [h2]
      | ok buffs =>
        cases h3 : filtersLoop env buffs s.Filters [] [] with
        | error c => simp [h2, h3]
        | ok pr =>
          obtain ⟨fs, tb⟩ := pr
          cases h4 : env.newHTTPTemplate tb with
          | some e => simp [h2, h3, h4]
          | none =>
            cases h5 : labelsLoop fs s.Flow.reverse [LabelEND] with
            | some c => simp [h2, h3, h4, h5, repeatedLoop_nil]
            | none =>
              simp only [h2, h3, h4, h5, repeatedLoop_nil, true_iff]
              exact ⟨d, buffs, fs, tb, rfl, h2, h3, h4, h5⟩

/-- In every spec `Validate` accepts, each jump target of each flow entry is
`END` or the filter of a strictly later flow entry. -/
theorem validate_accepts_forward (env : Env Obj Raw) (s : Spec Raw) (config : String)
    (h : Spec.Validate env s config = none) (i : Nat) (f : Flow) (hf : s.Flow[i]? = some f)
    (r l : String) (hl : f.JumpIf.lookup r = some l) :
    l = LabelEND ∨ ∃ j g, i < j ∧ s.Flow[j]? = some g ∧ g.Filter = l := by
  obtain ⟨_, _, fs, _, _, _, _, _, hlab⟩ := (validate_eq_none_iff env s config).1 h
  obtain ⟨spec, _, hall⟩ :=
    (labelsLoop_eq_none_iff fs _ _).1 hlab _ f _ (reverse_split_at s.Flow i f hf)
  rcases (hall r l hl).2 with h1 | h1
  · exact Or.inl (by simpa using h1)
  · right
    simp only [List.map_reverse, List.mem_reverse, List.mem_map] at h1
    obtain ⟨g, hg, hgl⟩ := h1
    obtain ⟨j, hj, hjg⟩ := (mem_drop_succ_iff _ _ _).1 hg
    exact ⟨j, g, hj, hjg, hgl⟩

theorem lookup_of_mem_nodup {β : Type} : ∀ (l : List (String × β)) (k : String) (v : β),
    (l.map Prod.fst).Nodup → (k, v) ∈ l → l.lookup k = some v
  | [], _, _, _, h => by simp at h
  | (a, b) :: rest, k, v, hnd, h => by
    simp only [List.map_cons, List.nodup_cons] at hnd
    rcases List.mem_cons.1 h with h1 | h1
    · obtain ⟨rfl, rfl⟩ := Prod.mk.inj h1
      simp [List.lookup]
    · have hka : k ≠ a := by
        rintro rfl
        exact hnd.1 (List.mem_map.2 ⟨(k, v), h1, rfl⟩)
      have hne : (k == a) = false := by simpa using hka
      simp only [List.lookup, hne]
      exact lookup_of_mem_nodup rest k v hnd.2 h1

theorem lookup_eq_none_of_not_mem {β : Type} : ∀ (l : List (String × β)) (k : String),
    k ∉ l.map Prod.fst → l.lookup k = none
  | [], _, _ => rfl
  | (a, b) :: rest, k, h => by
    simp only [List.map_cons, List.mem_cons, not_or] at h
    have hne : (k == a) = false := by simpa using h.1
    simp only [List.lookup, hne]
    exact lookup_eq_none_of_not_mem rest k h.2

/-- The loop over `Filters` succeeds on entries that decode to specs with
pairwise distinct names not yet in the map; it binds each name to its spec. -/
theorem filtersLoop_ok (env : Env Obj Raw) (filterBuffs : StrMap) :
    ∀ (raws : List Raw) (specs : List FilterSpec) (acc : List (String × FilterSpec))
      (tb : List FilterBuff),
      raws.map env.newFilterSpecInternal = specs.map Except.ok →
      (specs.map FilterSpec.Name).Nodup →
      (∀ spec ∈ specs, spec.Name ∉ acc.map Prod.fst) →
      filtersLoop env filterBuffs raws acc tb =
        .ok ((specs.map fun sp => (sp.Name, sp)).reverse ++ acc,
          tb ++ specs.map fun sp => ⟨sp.Name, (filterBuffs.lookup sp.Name).getD ""⟩)
  | [], specs, acc, tb, hdec, _, _ => by
    cases specs with
    | nil => simp [filtersLoop]
    | cons a l => simp at hdec
  | raw :: rest, specs, acc, tb, hdec, hnd, hacc => by
    cases specs with
    | nil => simp at hdec
    | cons sp sps =>
      simp only [List.map_cons, List.cons.injEq] at hdec
      simp only [List.map_cons, List.nodup_cons] at hnd
      have hlk : acc.lookup sp.Name = none :=
        lookup_eq_none_of_not_mem acc sp.Name (hacc sp (List.mem_cons_self _ _))
      have ih := filtersLoop_ok env filterBuffs rest sps ((sp.Name, sp) :: acc)
        (tb ++ [⟨sp.Name, (filterBuffs.lookup sp.Name).getD ""⟩]) hdec.2 hnd.2
        (by
          intro spec hspec
          simp only [List.map_cons, List.mem_cons, not_or]
          refine ⟨?_, hacc spec (List.mem_cons_of_mem _ hspec)⟩
          intro heq
          exact hnd.1 (List.mem_map.2 ⟨spec, hspec, heq⟩))
      unfold filtersLoop
      simp only [hdec.1, hlk, Option.isSome_none, Bool.false_eq_true, if_false]
      rw [ih]
      simp

end ValidateFacts

/-! ## Claims about `Validate` -/

section ValidateClaims

variable {Obj Raw : Type}

/-- C1: a spec whose flow has, at some entry `i`, a jump label that is neither
`END` nor the filter name of a flow entry at a strictly later position (a
backward jump, a jump to itself, an undefined label) is rejected: `Validate`
returns a non-nil error. -/
theorem validate_rejects_bad_jump_label (env : Env Obj Raw) (s : Spec Raw) (config : String)
    (i : Nat) (f : Flow) (r l : String)
    (hf : s.Flow[i]? = some f) (hl : f.JumpIf.lookup r = some l)
    (hEND : l ≠ LabelEND)
    (hlater : ∀ j g, i < j → s.Flow[j]? = some g → g.Filter ≠ l) :
    Spec.Validate env s config ≠ none := by
  intro h
  rcases validate_accepts_forward env s config h i f hf r l hl with h1 | ⟨j, g, hj, hg, hgl⟩
  · exact hEND h1
  · exact hlater j g hj hg hgl

theorem validate_rejects_bad_jump_label_witness :
    Spec.Validate Ex.env Ex.selfJumpSpec "" ≠ none :=
  validate_rejects_bad_jump_label Ex.env Ex.selfJumpSpec "" 0 ⟨"A", [("stop", "A")]⟩ "stop" "A"
    (by rfl) (by rfl) (by decide)
    (by
      intro j g hj hg
      match j, hj, hg with
      | 1, _, hg =>
        have : g = ⟨"B", []⟩ := by simpa [Ex.selfJumpSpec] using hg.symm
        subst this
        decide
      | j + 2, _, hg => simp [Ex.selfJumpSpec] at hg)

/-- C2 (the code at the failing input): the flow `A, A` references the filter
`A` twice and `Validate` returns `nil`. -/
theorem validate_accepts_repeated_filter :
    Ex.repeatedSpec.Flow.map Flow.Filter = ["A", "A"] ∧
      Spec.Validate Ex.env Ex.repeatedSpec "" = none := by
  decide

/-- C9: a spec with a `filters` section whose entries all decode (to specs that
pass the meta check: non-empty name, non-empty kind, name other than `END`)
with pairwise distinct names, whose HTTP template construction succeeds, and
whose flow entries each name a declared filter, use only result keys in that
filter's `Results()` and jump only to `END` or to a strictly later flow entry,
is accepted: `Validate` returns `nil`. -/
theorem validate_accepts_valid_spec (env : Env Obj Raw) (s : Spec Raw) (config : String)
    (filtersData : Obj) (filterBuffs : StrMap) (specs : List FilterSpec)
    (hsection : extractFiltersData env config = .ok (some filtersData))
    (hbuffs : convertToFilterBuffs env filtersData = .ok filterBuffs)
    (hdecode : s.Filters.map env.newFilterSpecInternal = specs.map Except.ok)
    (_hmeta : ∀ spec ∈ specs, spec.meta.validate = none)
    (hdistinct : (specs.map FilterSpec.Name).Nodup)
    (htemplate : env.newHTTPTemplate
      (specs.map fun sp => ⟨sp.Name, (filterBuffs.lookup sp.Name).getD ""⟩) = none)
    (hflow : ∀ (i : Nat) (f : Flow), s.Flow[i]? = some f →
      ∃ spec ∈ specs, spec.Name = f.Filter ∧
        ∀ r l, f.JumpIf.lookup r = some l →
          r ∈ spec.RootFilter.Results ∧
            (l = LabelEND ∨ ∃ (j : Nat) (g : Flow), i < j ∧ s.Flow[j]? = some g ∧ g.Filter = l)) :
    Spec.Validate env s config = none := by
  rw [validate_eq_none_iff]
  have hloop := filtersLoop_ok env filterBuffs s.Filters specs [] [] hdecode hdistinct
    (by simp)
  simp only [List.append_nil, List.nil_append] at hloop
  refine ⟨filtersData, filterBuffs, _, _, hsection, hbuffs, hloop, htemplate, ?_⟩
  rw [labelsLoop_eq_none_iff]
  intro pre f post hsplit
  -- the position of `f` in the flow
  have hrev : s.Flow = post.reverse ++ f :: pre.reverse := by
    have := congrArg List.reverse hsplit
    simpa using this
  have hi : s.Flow[post.length]? = some f := by
    rw [hrev, List.getElem?_append_right (by simp)]
    simp
  obtain ⟨spec, hspec, hname, hall⟩ := hflow post.length f hi
  refine ⟨spec, ?_, ?_⟩
  · apply lookup_of_mem_nodup
    · simp only [List.map_reverse, List.map_map]
      rw [List.nodup_reverse]
      exact hdistinct
    · rw [← hname]
      simp only [List.mem_reverse, List.mem_map]
      exact ⟨spec, hspec, rfl⟩
  · intro r l hl
    obtain ⟨h1, h2⟩ := hall r l hl
    refine ⟨h1, ?_⟩
    rcases h2 with h2 | ⟨j, g, hj, hg, hgl⟩
    · exact Or.inl (by simp [h2])
    · right
      have hmem : g ∈ s.Flow.drop (post.length + 1) :=
        (mem_drop_succ_iff _ _ _).2 ⟨j, hj, hg⟩
      have hdrop : s.Flow.drop (post.length + 1) = pre.reverse := by
        have h3 : s.Flow = (post.reverse ++ [f]) ++ pre.reverse := by simp [hrev]
        have hlen : post.length + 1 = (post.reverse ++ [f]).length := by simp
        rw [h3, hlen, List.drop_left]
      rw [hdrop] at hmem
      exact List.mem_map.2 ⟨g, List.mem_reverse.1 hmem, hgl⟩

theorem validate_accepts_valid_spec_witness :
    Spec.Validate Ex.env Ex.forwardSpec "" = none :=
  validate_accepts_valid_spec Ex.env Ex.forwardSpec "" [] [] [Ex.specK "A", Ex.specK "B"]
    (by rfl) (by rfl) (by rfl) (by decide) (by decide) (by rfl)
    (by
      intro i f hf
      match i, hf with
      | 0, hf =>
        have : f = ⟨"A", [("stop", "B")]⟩ := by simpa [Ex.forwardSpec] using hf.symm
        subst this
        refine ⟨Ex.specK "A", by simp, rfl, ?_⟩
        intro r l hl
        by_cases hr : r = "stop"
        · subst hr
          have : l = "B" := by simpa [List.lookup] using hl.symm
          subst this
          exact ⟨by decide, Or.inr ⟨1, ⟨"B", []⟩, by decide, rfl, rfl⟩⟩
        · have hne : (r == "stop") = false := by simpa using hr
          simp [List.lookup, hne] at hl
      | 1, hf =>
        have : f = ⟨"B", []⟩ := by simpa [Ex.forwardSpec] using hf.symm
        subst this
        refine ⟨Ex.specK "B", by simp, rfl, ?_⟩
        intro r l hl
        simp at hl
      | i + 2, hf => simp [Ex.forwardSpec] at hf)

end ValidateClaims

/-! ## Claims about `getNextFilterIndex` -/

/-- The forward scan returns the first position holding the name, counted from
`base`, or `-1` when no filter of the list has that name. -/
theorem scanName_spec (name : String) : ∀ (l : List RunningFilter) (base : Int),
    (scanName name l base = -1 ∧ ∀ f ∈ l, f.spec.Name ≠ name) ∨
    (∃ k : Nat, scanName name l base = base + k ∧
      (∃ g, l[k]? = some g ∧ g.spec.Name = name) ∧
      ∀ (m : Nat) (g : RunningFilter), m < k → l[m]? = some g → g.spec.Name ≠ name)
  | [], base => by simp [scanName]
  | f :: rest, base => by
    by_cases hf : f.spec.Name = name
    · right
      refine ⟨0, by simp [scanName, hf], ⟨f, by simp, hf⟩, ?_⟩
      intro m g hm
      omega
    · rcases scanName_spec name rest (base + 1) with ⟨h1, h2⟩ | ⟨k, h1, ⟨g, hg, hgn⟩, h3⟩
      · left
        refine ⟨by simp [scanName, hf, h1], ?_⟩
        intro g hg
        rcases List.mem_cons.1 hg with rfl | hg
        · exact hf
        · exact h2 g hg
      · right
        refine ⟨k + 1, ?_, ⟨g, by simpa using hg, hgn⟩, ?_⟩
        · simp only [scanName, hf, if_false, h1]
          push_cast
          ring
        · intro m g1 hm hg1
          cases m with
          | zero =>
            simp at hg1
            subst hg1
            exact hf
          | succ m =>
            simp only [List.getElem?_cons_succ] at hg1
            exact h3 m g1 (by omega) hg1

/-- C3: for an index `i` in range (or `i = -1` with the empty token),
`getNextFilterIndex i R` is `i + 1` when `R` is empty; otherwise, with the
jump table of the filter at `i`: `-1` when it has no entry for `R`, the list
length when it maps `R` to `END`, and when it maps `R` to another label `L`
the smallest position `j > i` whose filter is named `L`, or `-1` when there is
none. It holds for every token, declared in `Results()` or not. -/
theorem getNextFilterIndex_spec (hp : HTTPPipeline) (i : Int) (R : String)
    (hi : (0 ≤ i ∧ i < hp.runningFilters.length) ∨ (i = -1 ∧ R = "")) :
    (R = "" → getNextFilterIndex hp i R = some (i + 1)) ∧
    (R ≠ "" → ∃ filter, hp.runningFilters[i.toNat]? = some filter ∧
      (filter.jumpIf.lookup R = none → getNextFilterIndex hp i R = some (-1)) ∧
      (filter.jumpIf.lookup R = some LabelEND →
        getNextFilterIndex hp i R = some (hp.runningFilters.length : Int)) ∧
      (∀ L, filter.jumpIf.lookup R = some L → L ≠ LabelEND →
        (∃ j : Nat, getNextFilterIndex hp i R = some (j : Int) ∧ i < j ∧
          (∃ g, hp.runningFilters[j]? = some g ∧ g.spec.Name = L) ∧
          ∀ (k : Nat) (g : RunningFilter), i < k → k < j →
            hp.runningFilters[k]? = some g → g.spec.Name ≠ L) ∨
        (getNextFilterIndex hp i R = some (-1) ∧
          ∀ (k : Nat) (g : RunningFilter), i < k →
            hp.runningFilters[k]? = some g → g.spec.Name ≠ L))) := by
  refine ⟨fun hR => by simp [getNextFilterIndex, hR], ?_⟩
  intro hR
  rcases hi with ⟨h0, hlen⟩ | ⟨_, h⟩
  swap
  · exact absurd h hR
  obtain ⟨n, rfl⟩ := Int.eq_ofNat_of_zero_le h0
  have hn : n < hp.runningFilters.length := by exact_mod_cast hlen
  have hget : hp.runningFilters[n]? = some hp.runningFilters[n] := List.getElem?_eq_getElem hn
  have hneg : ¬ ((n : Int) < 0) := by omega
  refine ⟨hp.runningFilters[n], by simp, ?_, ?_, ?_⟩
  · intro hlk
    simp only [getNextFilterIndex, hR, if_false, hneg, Int.toNat_ofNat, hget, hlk]
    split <;> rfl
  · intro hlk
    have hne : hp.runningFilters[n].jumpIf.length ≠ 0 := by
      intro h0
      rw [List.length_eq_zero] at h0
      rw [h0] at hlk
      simp at hlk
    simp [getNextFilterIndex, hR, hneg, hget, hlk, hne]
  · intro L hlk hL
    have hne : hp.runningFilters[n].jumpIf.length ≠ 0 := by
      intro h0
      rw [List.length_eq_zero] at h0
      rw [h0] at hlk
      simp at hlk
    have heq : getNextFilterIndex hp n R =
        some (scanName L (hp.runningFilters.drop (n + 1)) ((n : Int) + 1)) := by
      simp [getNextFilterIndex, hR, hneg, hget, hlk, hne, hL]
    rcases scanName_spec L (hp.runningFilters.drop (n + 1)) ((n : Int) + 1) with
      ⟨h1, h2⟩ | ⟨k, h1, ⟨g, hg, hgn⟩, h3⟩
    · right
      refine ⟨by rw [heq, h1], ?_⟩
      intro k g hk hg
      exact h2 g ((mem_drop_succ_iff _ _ _).2 ⟨k, by exact_mod_cast hk, hg⟩)
    · left
      refine ⟨n + 1 + k, ?_, by push_cast; omega, ⟨g, ?_, hgn⟩, ?_⟩
      · rw [heq, h1]
        push_cast
        rfl
      · rw [List.getElem?_drop] at hg
        exact hg
      · intro m g1 hm1 hm2 hg1
        have hm1 : n < m := by exact_mod_cast hm1
        refine h3 (m - (n + 1)) g1 (by omega) ?_
        rw [List.getElem?_drop]
        have : n + 1 + (m - (n + 1)) = m := by omega
        rw [this]
        exact hg1

theorem getNextFilterIndex_spec_witness :
    ((0 : Int) ≤ 0 ∧ (0 : Int) < Ex.jumpPipeline.runningFilters.length) ∧
    ("fail" ≠ "" → ∃ filter, Ex.jumpPipeline.runningFilters[(0 : Int).toNat]? = some filter ∧
      (filter.jumpIf.lookup "fail" = none →
        getNextFilterIndex Ex.jumpPipeline 0 "fail" = some (-1)) ∧
      (filter.jumpIf.lookup "fail" = some LabelEND →
        getNextFilterIndex Ex.jumpPipeline 0 "fail" =
          some (Ex.jumpPipeline.runningFilters.length : Int)) ∧
      (∀ L, filter.jumpIf.lookup "fail" = some L → L ≠ LabelEND →
        (∃ j : Nat, getNextFilterIndex Ex.jumpPipeline 0 "fail" = some (j : Int) ∧ (0 : Int) < j ∧
          (∃ g, Ex.jumpPipeline.runningFilters[j]? = some g ∧ g.spec.Name = L) ∧
          ∀ (k : Nat) (g : RunningFilter), (0 : Int) < k → k < j →
            Ex.jumpPipeline.runningFilters[k]? = some g → g.spec.Name ≠ L) ∨
        (getNextFilterIndex Ex.jumpPipeline 0 "fail" = some (-1) ∧
          ∀ (k : Nat) (g : RunningFilter), (0 : Int) < k →
            Ex.jumpPipeline.runningFilters[k]? = some g → g.spec.Name ≠ L))) :=
  ⟨⟨by decide, by decide⟩,
    (getNextFilterIndex_spec Ex.jumpPipeline 0 "fail" (Or.inl ⟨by decide, by decide⟩)).2⟩

/-- C4 (as stated, refuted): `oops` is non-empty and not in `Results()` of the
filter at index 0, whose jump table maps it to `END`; `getNextFilterIndex`
logs the bug and returns the list length 2, not -1. -/
theorem getNextFilterIndex_out_of_set_jumps :
    Ex.oopsPipeline.runningFilters[0]? = some (Ex.rf "A" [("oops", "END")] 0) ∧
    "oops" ∉ (Ex.rf "A" [("oops", "END")] 0).rootFilter.Results ∧
    invalidResultLogged (Ex.rf "A" [("oops", "END")] 0) "oops" = true ∧
    getNextFilterIndex Ex.oopsPipeline 0 "oops" = some 2 ∧
    getNextFilterIndex Ex.oopsPipeline 0 "oops" ≠ some (-1) := by
  decide

/-- C4 (amended): for an in-range index `i` and a non-empty token `R` that is
not in `Results()` of the filter at `i`, `getNextFilterIndex` logs the bug and,
when every key of that filter's jump table is a declared result (what
`Validate` requires of a flow entry), returns -1. -/
theorem getNextFilterIndex_out_of_set (hp : HTTPPipeline) (i : Nat) (R : String)
    (filter : RunningFilter) (hf : hp.runningFilters[i]? = some filter)
    (hR : R ≠ "") (hout : R ∉ filter.rootFilter.Results)
    (hkeys : ∀ r l, filter.jumpIf.lookup r = some l → r ∈ filter.rootFilter.Results) :
    invalidResultLogged filter R = true ∧ getNextFilterIndex hp i R = some (-1) := by
  have hlk : filter.jumpIf.lookup R = none := by
    cases h : filter.jumpIf.lookup R with
    | none => rfl
    | some l => exact absurd (hkeys R l h) hout
  have hneg : ¬ ((i : Int) < 0) := by omega
  refine ⟨by simp [invalidResultLogged, StrInSlice, hout], ?_⟩
  simp only [getNextFilterIndex, hR, if_false, hneg, Int.toNat_ofNat, hf, hlk]
  split <;> rfl

theorem getNextFilterIndex_out_of_set_witness :
    invalidResultLogged (Ex.rf "A" [("fail", "C")] 0) "oops" = true ∧
      getNextFilterIndex Ex.jumpPipeline (0 : Nat) "oops" = some (-1) :=
  getNextFilterIndex_out_of_set Ex.jumpPipeline 0 "oops" (Ex.rf "A" [("fail", "C")] 0)
    (by rfl) (by decide) (by decide)
    (by
      intro r l hl
      by_cases hr : r = "fail"
      · subst hr
        decide
      · have hne : (r == "fail") = false := by simpa using hr
        simp [Ex.rf, List.lookup, hne] at hl)

/-! ## Executions of `Handle` -/

/-- Where `getNextFilterIndex` can lead from an index in range (or from -1 with
the empty token): to the list length, to -1, or strictly forward. -/
theorem getNextFilterIndex_range (hp : HTTPPipeline) (i : Int) (R : String)
    (hlo : -1 ≤ i) (hhi : i < hp.runningFilters.length) (hstart : i = -1 → R = "") :
    ∃ next, getNextFilterIndex hp i R = some next ∧
      (next = hp.runningFilters.length ∨ next = -1 ∨
        (i < next ∧ 0 ≤ next ∧ next < hp.runningFilters.length)) := by
  by_cases hR : R = ""
  · refine ⟨i + 1, by simp [getNextFilterIndex, hR], ?_⟩
    omega
  · have h0 : 0 ≤ i := by
      by_contra hc
      exact hR (hstart (by omega))
    obtain ⟨n, rfl⟩ := Int.eq_ofNat_of_zero_le h0
    have hn : n < hp.runningFilters.length := by exact_mod_cast hhi
    have hget : hp.runningFilters[n]? = some hp.runningFilters[n] := List.getElem?_eq_getElem hn
    have hneg : ¬ ((n : Int) < 0) := by omega
    simp only [getNextFilterIndex, hR, if_false, hneg, Int.toNat_ofNat, hget]
    split
    · exact ⟨-1, rfl, Or.inr (Or.inl rfl)⟩
    · cases hlk : hp.runningFilters[n].jumpIf.lookup R with
      | none => exact ⟨-1, rfl, Or.inr (Or.inl rfl)⟩
      | some name =>
        by_cases hE : name = LabelEND
        · exact ⟨_, by simp [hE], Or.inl rfl⟩
        · refine ⟨scanName name (hp.runningFilters.drop (n + 1)) ((n : Int) + 1),
            by simp only [hE, if_false], ?_⟩
          rcases scanName_spec name (hp.runningFilters.drop (n + 1)) ((n : Int) + 1) with
            ⟨h1, _⟩ | ⟨k, h1, ⟨g, hg, _⟩, _⟩
          · exact Or.inr (Or.inl h1)
          · right; right
            have hk : k < (hp.runningFilters.drop (n + 1)).length := by
              by_contra hc
              rw [List.getElem?_eq_none (by omega)] at hg
              exact absurd hg (by simp)
            rw [List.length_drop] at hk
            rw [h1]
            omega

section Execution

variable {σ : Type}

theorem Extends.refl (s : Run σ) : Extends s s :=
  ⟨rfl, [], by simp, by simp⟩

theorem Extends.trans {a b c : Run σ} (h1 : Extends a b) (h2 : Extends b c) : Extends a c := by
  obtain ⟨hi1, X, hs1, he1⟩ := h1
  obtain ⟨hi2, Y, hs2, he2⟩ := h2
  exact ⟨hi2.trans hi1, X ++ Y, by rw [hs2, hs1, List.append_assoc],
    by rw [he2, he1, List.append_assoc]⟩

/-- A filter's `Handle` returns, and leaves the state extended, as soon as
every handler-caller invocation it makes at its own index does. -/
theorem runProg_ok (callNext : String → Run σ → Except Halt (String × Run σ)) (i : Int)
    (hcall : ∀ r s, s.filterIndex = i →
      ∃ t s1, callNext r s = .ok (t, s1) ∧ Extends s s1) :
    ∀ (p : Prog σ) (s : Run σ), s.filterIndex = i →
      ∃ t s1, runProg callNext p s = .ok (t, s1) ∧ Extends s s1 := by
  intro p
  induction p with
  | ret result =>
    intro s _
    exact ⟨result, s, rfl, Extends.refl s⟩
  | call lastResult k ih =>
    intro s hs
    obtain ⟨t, s1, h1, hx1⟩ := hcall lastResult s hs
    obtain ⟨t2, s2, h2, hx2⟩ := ih t s1 (hx1.1.trans hs)
    refine ⟨t2, s2, ?_, hx1.trans hx2⟩
    simp only [runProg, h1, h2]
  | act f elapsed k ih =>
    intro s hs
    obtain ⟨t2, s2, h2, hx2⟩ :=
      ih (f s.ctx) { s with ctx := f s.ctx, now := s.now + elapsed } hs
    refine ⟨t2, s2, ?_, ?_⟩
    · simp only [runProg, h2]
    · exact Extends.trans ⟨rfl, [], by simp, by simp⟩ hx2

theorem set_length_append {α : Type} (a : List α) (x y : α) (l : List α) :
    (a ++ x :: l).set a.length y = a ++ y :: l := by
  induction a with
  | nil => simp
  | cons b a ih => simp [ih]

theorem statNames_set (l : List FilterStat) (n : Nat) (st : FilterStat) :
    statNames (l.set n st) = (statNames l).set n st.Name := by
  simp [statNames, List.map_set]

/-- Every invocation of the closure `handle` made at an index in range (or at
-1 with the empty token) returns when the nesting bound covers the filters
ahead, and leaves the state extended. -/
theorem handle_ok (hp : HTTPPipeline) (handleOf : Instance → Prog σ) :
    ∀ (fuel : Nat) (r : String) (s : Run σ),
      -1 ≤ s.filterIndex → s.filterIndex < hp.runningFilters.length →
      (s.filterIndex = -1 → r = "") →
      (hp.runningFilters.length : Int) - s.filterIndex ≤ fuel →
      ∃ t s1, handle hp handleOf fuel r s = .ok (t, s1) ∧ Extends s s1 := by
  intro fuel
  induction fuel with
  | zero =>
    intro r s _ hhi _ hfuel
    exact absurd hfuel (by push_cast; omega)
  | succ fuel ih =>
    intro r s hlo hhi hstart hfuel
    obtain ⟨next, hnext, hcases⟩ := getNextFilterIndex_range hp s.filterIndex r hlo hhi hstart
    unfold handle
    simp only [hnext]
    by_cases hend : next = hp.runningFilters.length
    · simp only [hend, if_true]
      exact ⟨_, _, rfl, ⟨rfl, [], by simp, by simp⟩⟩
    · by_cases hneg : next = -1
      · simp only [hend, if_false, hneg, if_true]
        exact ⟨_, _, rfl, ⟨rfl, [], by simp, by simp⟩⟩
      · simp only [hend, if_false, hneg]
        obtain ⟨hgt, h0, hlt⟩ : s.filterIndex < next ∧ 0 ≤ next ∧
            next < hp.runningFilters.length := by
          rcases hcases with h | h | h
          · exact absurd h hend
          · exact absurd h hneg
          · exact h
        obtain ⟨n, rfl⟩ := Int.eq_ofNat_of_zero_le h0
        have hn : n < hp.runningFilters.length := by exact_mod_cast hlt
        have hget : hp.runningFilters[n]? = some hp.runningFilters[n] :=
          List.getElem?_eq_getElem hn
        simp only [Int.toNat_ofNat, hget]
        obtain ⟨t, s2, hrun, hidx, X, hst, hev⟩ :=
          runProg_ok (handle hp handleOf fuel) (n : Int)
            (fun r1 s1 hs1 => ih r1 s1 (by omega) (by omega) (by omega) (by push_cast at hfuel; omega))
            (handleOf hp.runningFilters[n].filter)
            { s with
              filterIndex := (n : Int)
              FilterStats := s.FilterStats ++
                [⟨hp.runningFilters[n].spec.Name, hp.runningFilters[n].spec.Kind, "", 0⟩]
              events := s.events ++ [.SaveReqToTemplate hp.runningFilters[n].spec.Name,
                .Handle hp.runningFilters[n]] }
            rfl
        simp only [hrun]
        refine ⟨_, _, rfl, rfl, hp.runningFilters[n].spec.Name :: X, ?_, ?_⟩
        · simp only [statNames_set]
          rw [hst]
          simp only [statNames, List.map_append, List.map_cons, List.map_nil,
            List.append_assoc, List.singleton_append]
          have hlen : s.FilterStats.length = (s.FilterStats.map FilterStat.Name).length := by simp
          rw [hlen, set_length_append]
        · simp only [handledNames, List.filterMap_append] at hev ⊢
          rw [hev]
          simp [Event.handled]

/-- `HTTPPipeline.Handle` always returns: the nesting bound it starts with is
never exhausted and no index is out of range. The stats it leaves and the
`Handle` invocations it made carry the same names in the same order. -/
theorem Handle_ok (hp : HTTPPipeline) (handleOf : Instance → Prog σ)
    (durationString : Int → String) (ctx : σ) (now : Int) :
    ∃ out, Handle hp handleOf durationString ctx now = .ok out ∧
      out.tag = Cat ["pipeline: ", PipelineContext.log durationString out.final.FilterStats] ∧
      out.final.filterIndex = -1 ∧
      statNames out.final.FilterStats = handledNames out.final.events := by
  obtain ⟨t, s1, h, hidx, X, hst, hev⟩ :=
    handle_ok hp handleOf (hp.runningFilters.length + 1) "" ⟨-1, [], now, ctx, []⟩
      (by simp) (by simp; omega) (fun _ => rfl) (by push_cast; simp)
  refine ⟨⟨Cat ["pipeline: ", PipelineContext.log durationString s1.FilterStats], t, s1⟩,
    ?_, rfl, hidx, ?_⟩
  · simp only [Handle, h]
  · rw [hst, hev]
    simp [statNames, handledNames]

end Execution

/-! ## Claims about the request tag and the stats -/

section ExecutionClaims

variable {σ : Type}

theorem log_eq_render (durationString : Int → String) (st : FilterStat) :
    FilterStat.log durationString st = renderCommaIfResult durationString st := by
  unfold FilterStat.log renderCommaIfResult
  by_cases h : st.Result = ""
  · simp [h, Cat, String.join]
  · simp [h, Cat, String.join, String.append_assoc]

theorem tag_eq_tagOf (durationString : Int → String) (stats : List FilterStat) :
    Cat ["pipeline: ", PipelineContext.log durationString stats] =
      tagOf (renderCommaIfResult durationString) stats := by
  have hfun : FilterStat.log durationString = renderCommaIfResult durationString :=
    funext (log_eq_render durationString)
  unfold PipelineContext.log tagOf
  cases stats with
  | nil => simp [Cat, String.join]
  | cons a l => simp [Cat, String.join, hfun]

/-- C6 (as stated, refuted): the flow `A, B, C` with every filter succeeding
leaves three stats with the empty result token; the tag `Handle` adds is
`pipeline: A(0s)->B(0s)->C(0s)`, while rendering each stat as
`name(result,duration)` gives `pipeline: A(,0s)->B(,0s)->C(,0s)`. -/
theorem tag_of_linear_flow :
    (Handle Ex.linearPipeline Ex.passAll Ex.zeroDuration () 0).toOption.map Outcome.tag =
      some "pipeline: A(0s)->B(0s)->C(0s)" ∧
    (Handle Ex.linearPipeline Ex.passAll Ex.zeroDuration () 0).toOption.map
      (fun out => tagOf (renderAsSpecified Ex.zeroDuration) out.final.FilterStats) =
      some "pipeline: A(,0s)->B(,0s)->C(,0s)" := by
  decide

/-- C6 (amended): `Handle` returns and the tag it adds is `pipeline: ` followed
by `<empty>` when no stat was recorded, and otherwise by the recorded stats in
list order joined with `->`, each rendered as `name(result,duration)` when its
result token is non-empty and as `name(duration)` when it is empty. -/
theorem tag_of_Handle (hp : HTTPPipeline) (handleOf : Instance → Prog σ)
    (durationString : Int → String) (ctx : σ) (now : Int) :
    ∃ out, Handle hp handleOf durationString ctx now = .ok out ∧
      out.tag = tagOf (renderCommaIfResult durationString) out.final.FilterStats := by
  obtain ⟨out, h, htag, -, -⟩ := Handle_ok hp handleOf durationString ctx now
  exact ⟨out, h, by rw [htag, tag_eq_tagOf]⟩

/-- C10: every execution of `Handle` returns, whatever the filters do with the
handler caller (nested or repeated invocations), and the filter names of the
recorded stats, in list order, are the names of the filters whose `Handle` was
invoked, in the order the invocations started. -/
theorem stats_follow_invocation_order (hp : HTTPPipeline) (handleOf : Instance → Prog σ)
    (durationString : Int → String) (ctx : σ) (now : Int) :
    ∃ out, Handle hp handleOf durationString ctx now = .ok out ∧
      statNames out.final.FilterStats = handledNames out.final.events := by
  obtain ⟨out, h, -, -, hnames⟩ := Handle_ok hp handleOf durationString ctx now
  exact ⟨out, h, hnames⟩

end ExecutionClaims

/-! ## Jump to `END` -/

section JumpToEnd

variable {σ : Type}

/-- At the first filter, whose jump table maps `R` to `END`, the handler caller
invoked with `R` returns the empty token and leaves the state as it was. -/
theorem handle_jump_END (hp : HTTPPipeline) (handleOf : Instance → Prog σ)
    (A : RunningFilter) (rest : List RunningFilter) (R : String)
    (hflow : hp.runningFilters = A :: rest) (hR : R ≠ "")
    (hjump : A.jumpIf.lookup R = some LabelEND)
    (fuel : Nat) (s : Run σ) (hs : s.filterIndex = 0) :
    handle hp handleOf (fuel + 1) R s = .ok ("", s) := by
  have hne : A.jumpIf.length ≠ 0 := by
    intro h0
    rw [List.length_eq_zero] at h0
    rw [h0] at hjump
    simp at hjump
  have hnext : getNextFilterIndex hp s.filterIndex R = some (hp.runningFilters.length : Int) := by
    simp [getNextFilterIndex, hR, hs, hflow, hne, hjump]
  unfold handle
  simp only [hnext, if_true]

/-- A `Handle` that only passes `R` to the handler caller runs, at the first
filter, to the token `returnsUnder` gives, adding no stat and no event. -/
theorem runProg_returnsUnder (hp : HTTPPipeline) (handleOf : Instance → Prog σ)
    (A : RunningFilter) (rest : List RunningFilter) (R : String)
    (hflow : hp.runningFilters = A :: rest) (hR : R ≠ "")
    (hjump : A.jumpIf.lookup R = some LabelEND) (fuel : Nat) (T : String) :
    ∀ (p : Prog σ) (s : Run σ), s.filterIndex = 0 → returnsUnder R p s.ctx = some T →
      ∃ s1, runProg (handle hp handleOf (fuel + 1)) p s = .ok (T, s1) ∧
        s1.filterIndex = 0 ∧ s1.FilterStats = s.FilterStats ∧ s1.events = s.events := by
  intro p
  induction p with
  | ret result =>
    intro s hs hret
    simp only [returnsUnder, Option.some.injEq] at hret
    subst hret
    exact ⟨s, rfl, hs, rfl, rfl⟩
  | call lastResult k ih =>
    intro s hs hret
    by_cases hl : lastResult = R
    · subst hl
      simp only [returnsUnder, if_true] at hret
      obtain ⟨s1, h1, h2, h3, h4⟩ := ih "" s hs hret
      refine ⟨s1, ?_, h2, h3, h4⟩
      simp only [runProg, handle_jump_END hp handleOf A rest lastResult hflow hR hjump fuel s hs, h1]
    · simp [returnsUnder, hl] at hret
  | act f elapsed k ih =>
    intro s hs hret
    simp only [returnsUnder] at hret
    obtain ⟨s1, h1, h2, h3, h4⟩ :=
      ih (f s.ctx) { s with ctx := f s.ctx, now := s.now + elapsed } hs hret
    exact ⟨s1, by simp only [runProg, h1], h2, h3, h4⟩

/-- C7 (as stated, refuted) on the flow `A {stop -> END}, B`. When `Handle` of
`A` returns `stop`, `B` is not invoked and the stats are the one entry
`A(stop)`, but the top-level invocation of the callback returns `stop`, not
the empty token. When `Handle` of `A` instead returns what the handler caller
gives it for `stop`, the top-level invocation returns the empty token and the
one stat of `A` carries the empty result. -/
theorem jump_to_END_returns_what_A_returns :
    (Handle Ex.stopPipeline Ex.stopReturned Ex.zeroDuration () 0).toOption.map
      (fun out => (out.result, out.final.FilterStats.map (fun st => (st.Name, st.Result)),
        handledNames out.final.events)) = some ("stop", [("A", "stop")], ["A"]) ∧
    (Handle Ex.stopPipeline Ex.stopForwarded Ex.zeroDuration () 0).toOption.map
      (fun out => (out.result, out.final.FilterStats.map (fun st => (st.Name, st.Result)),
        handledNames out.final.events)) = some ("", [("A", "")], ["A"]) := by
  decide

/-- C7 (amended): the first filter `A` declares a non-empty result `R`, jumps
to `END` on it, and is followed by a filter `B`. When `Handle` of `A` passes
only `R` to the handler caller and returns `R`, then `A` is the only filter
invoked, the recorded stats are exactly one entry for `A` with result `R`, and
the top-level invocation of the callback returns `R`; it is the invocation of
the handler caller with `R` that returns the empty token. -/
theorem jump_to_END (hp : HTTPPipeline) (handleOf : Instance → Prog σ)
    (durationString : Int → String) (ctx : σ) (now : Int)
    (A B : RunningFilter) (rest : List RunningFilter) (R : String)
    (hflow : hp.runningFilters = A :: B :: rest)
    (_hdecl : R ∈ A.rootFilter.Results) (hR : R ≠ "")
    (hjump : A.jumpIf.lookup R = some LabelEND)
    (hA : returnsUnder R (handleOf A.filter) ctx = some R) :
    ∃ out, Handle hp handleOf durationString ctx now = .ok out ∧
      out.final.events =
        [.SaveReqToTemplate A.spec.Name, .Handle A, .SaveRspToTemplate A.spec.Name] ∧
      (∃ d, out.final.FilterStats = [⟨A.spec.Name, A.spec.Kind, R, d⟩]) ∧
      out.result = R ∧
      ∀ (fuel : Nat) (s : Run σ), s.filterIndex = 0 →
        handle hp handleOf (fuel + 1) R s = .ok ("", s) := by
  have hlen : hp.runningFilters.length = (rest.length + 1) + 1 := by simp [hflow]
  have hnext : getNextFilterIndex hp (-1) "" = some 0 := by simp [getNextFilterIndex]
  have hget : hp.runningFilters[0]? = some A := by simp [hflow]
  obtain ⟨s1, hrun, -, hstats, hevents⟩ :=
    runProg_returnsUnder hp handleOf A (B :: rest) R hflow hR hjump (rest.length + 1) R
      (handleOf A.filter)
      { filterIndex := 0
        FilterStats := [] ++ [⟨A.spec.Name, A.spec.Kind, "", 0⟩]
        now := now
        ctx := ctx
        events := [] ++ [.SaveReqToTemplate A.spec.Name, .Handle A] }
      rfl hA
  have h0 : ¬ ((0 : Int) = ((rest.length + 1 + 1 : Nat) : Int)) := by push_cast; omega
  have hhandle : handle hp handleOf (hp.runningFilters.length + 1) "" ⟨-1, [], now, ctx, []⟩ =
      .ok (R, { s1 with
        filterIndex := -1
        FilterStats := s1.FilterStats.set 0 ⟨A.spec.Name, A.spec.Kind, R, s1.now - now⟩
        events := s1.events ++ [.SaveRspToTemplate A.spec.Name] }) := by
    rw [hlen]
    unfold handle
    simp only [hnext, hlen, h0, if_false, Int.toNat_zero, hget, hrun]
    simp
  refine ⟨⟨Cat ["pipeline: ", PipelineContext.log durationString
      (s1.FilterStats.set 0 ⟨A.spec.Name, A.spec.Kind, R, s1.now - now⟩)], R,
      { s1 with
        filterIndex := -1
        FilterStats := s1.FilterStats.set 0 ⟨A.spec.Name, A.spec.Kind, R, s1.now - now⟩
        events := s1.events ++ [.SaveRspToTemplate A.spec.Name] }⟩,
    by simp only [Handle, hhandle], ?_, ⟨s1.now - now, ?_⟩, rfl, ?_⟩
  · simp [hevents]
  · simp [hstats]
  · intro fuel s hs
    exact handle_jump_END hp handleOf A (B :: rest) R hflow hR hjump fuel s hs

theorem jump_to_END_witness :
    ∃ out, Handle Ex.stopPipeline Ex.stopCalledAndReturned Ex.zeroDuration () 0 = .ok out ∧
      out.final.events =
        [.SaveReqToTemplate "A", .Handle (Ex.rf "A" [("stop", "END")] 0),
          .SaveRspToTemplate "A"] ∧
      (∃ d, out.final.FilterStats = [⟨"A", "K", "stop", d⟩]) ∧
      out.result = "stop" ∧
      ∀ (fuel : Nat) (s : Run Unit), s.filterIndex = 0 →
        handle Ex.stopPipeline Ex.stopCalledAndReturned (fuel + 1) "stop" s = .ok ("", s) :=
  jump_to_END Ex.stopPipeline Ex.stopCalledAndReturned Ex.zeroDuration () 0
    (Ex.rf "A" [("stop", "END")] 0) (Ex.rf "B" [] 1) [] "stop"
    rfl (by decide) (by decide) (by rfl) (by rfl)

end JumpToEnd

/-! ## Claims about `reload` -/

section ReloadClaims

variable {Obj Raw : Type}

theorem callFor_name (prev : Option HTTPPipeline) (rf : RunningFilter) :
    (callFor prev rf).name = rf.spec.Name := by
  unfold callFor
  cases prevInstance prev rf.spec.Name <;> rfl

/-- The instantiation loop makes one call per running filter it completes, in
order. -/
theorem instantiate_calls (env : Env Obj Raw) (prev : Option HTTPPipeline) :
    ∀ (pre : List (FilterSpec × StrMap)) (nextId : Nat) (calls : List Call)
      (rfs : List RunningFilter) (buffs : List FilterBuff),
      instantiate env prev pre nextId = (calls, .ok (rfs, buffs)) →
      calls = rfs.map (callFor prev)
  | [], _, calls, rfs, buffs, h => by
    simp only [instantiate, Prod.mk.injEq, Except.ok.injEq] at h
    obtain ⟨rfl, rfl, -⟩ := h
    rfl
  | (spec, jumpIf) :: rest, nextId, calls, rfs, buffs, h => by
    unfold instantiate at h
    cases hreg : env.filterRegistry spec.Kind with
    | none => simp [hreg] at h
    | some rootFilter =>
      simp only [hreg] at h
      cases hrec : instantiate env prev rest (nextId + 1) with
      | mk calls1 r =>
        cases r with
        | error e => simp [hrec] at h
        | ok pr =>
          obtain ⟨rfs1, buffs1⟩ := pr
          have ih := instantiate_calls env prev rest (nextId + 1) calls1 rfs1 buffs1 hrec
          simp only [hrec, Prod.mk.injEq, Except.ok.injEq] at h
          obtain ⟨rfl, rfl, -⟩ := h
          simp only [List.map_cons, ih, List.cons.injEq, and_true]
          unfold callFor
          cases prevInstance prev spec.Name <;> rfl

/-- A completed `reload` made exactly one call per running filter of the new
generation, in order. -/
theorem reload_calls (env : Env Obj Raw) (spec : Spec Raw) (prev : Option HTTPPipeline)
    (nextId : Nat) (calls : List Call) (hp1 : HTTPPipeline)
    (h : reload env spec prev nextId = (calls, .ok hp1)) :
    calls = hp1.runningFilters.map (callFor prev) := by
  unfold reload at h
  cases hb : buildRunningFilters env spec with
  | error e => simp [hb] at h
  | ok pre =>
    simp only [hb] at h
    cases hi : instantiate env prev pre nextId with
    | mk calls1 r =>
      cases r with
      | error e => simp [hi] at h
      | ok pr =>
        obtain ⟨rfs, buffs⟩ := pr
        simp only [hi] at h
        cases ht : env.newHTTPTemplate buffs with
        | some e => simp [ht] at h
        | none =>
          simp only [ht, Prod.mk.injEq, Except.ok.injEq] at h
          obtain ⟨rfl, rfl⟩ := h
          exact instantiate_calls env prev pre nextId calls1 rfs buffs hi

/-- C5 (the code at the failing input): the flow names the filter `X`, which is
not among the declared filters (only `A` is); `reload` completes, and the one
running filter carries the spec of `A` with the jump table of the entry `X`. -/
theorem reload_keeps_last_spec_for_missing_filter :
    Ex.missingFlowSpec.Flow.map Flow.Filter = ["X"] ∧
    (reload Ex.env Ex.missingFlowSpec none 0).2 =
      .ok ⟨[Ex.rf "A" [("stop", "END")] 0], [⟨"A", ""⟩]⟩ ∧
    (Ex.rf "A" [("stop", "END")] 0).spec.Name ≠ "X" :=
  ⟨rfl, rfl, by decide⟩

/-- `getRunningFilter` returns the first running filter carrying the name:
the one with no filter of that name before it in the list. -/
theorem getRunningFilter_first (G : HTTPPipeline) (N : String)
    (before : List RunningFilter) (rfG : RunningFilter) (after : List RunningFilter)
    (hsplit : G.runningFilters = before ++ rfG :: after) (hname : rfG.spec.Name = N)
    (hfirst : ∀ g ∈ before, g.spec.Name ≠ N) :
    getRunningFilter G N = some rfG := by
  unfold getRunningFilter
  rw [hsplit]
  clear hsplit
  induction before with
  | nil => simp [List.find?, hname]
  | cons b rest ih =>
    have hb : (b.spec.Name == N) = false := by
      simpa using hfirst b (List.mem_cons_self _ _)
    simp only [List.cons_append, List.find?, hb]
    exact ih (fun g hg => hfirst g (List.mem_cons_of_mem _ hg))

/-- `getRunningFilter` returns `nil` when no running filter carries the name. -/
theorem getRunningFilter_none (G : HTTPPipeline) (N : String)
    (hnone : ∀ g ∈ G.runningFilters, g.spec.Name ≠ N) :
    getRunningFilter G N = none := by
  unfold getRunningFilter
  rw [List.find?_eq_none]
  intro g hg
  simpa using hnone g hg

/-- C8 (the code at the failing input): the previous generation runs `A` once
(instance 0) and the new spec has the flow `A, A`, which `Validate` accepts;
`reload` completes with two running filters named `A` and calls `Inherit` for
`A` twice, each time passing the previous instance 0. -/
theorem reload_inherits_twice :
    Spec.Validate Ex.env Ex.repeatedSpec "" = none ∧
    Ex.generationA.runningFilters.map (fun rf => (rf.spec.Name, rf.filter)) =
      [("A", ⟨0, "K"⟩)] ∧
    (reload Ex.env Ex.repeatedSpec (some Ex.generationA) 1).2 =
      .ok ⟨[Ex.rf "A" [] 1, Ex.rf "A" [] 2], [⟨"A", ""⟩, ⟨"A", ""⟩]⟩ ∧
    (reload Ex.env Ex.repeatedSpec (some Ex.generationA) 1).1 =
      [.Inherit ⟨1, "K"⟩ (Ex.specK "A") ⟨0, "K"⟩, .Inherit ⟨2, "K"⟩ (Ex.specK "A") ⟨0, "K"⟩] ∧
    ((reload Ex.env Ex.repeatedSpec (some Ex.generationA) 1).1.filter
      (fun c => c.name == "A")).length = 2 :=
  ⟨by decide, by decide, rfl, by decide, by decide⟩

/-- After a completed `reload`, for a name `N` that names exactly one running
filter of the new generation: when the previous generation has running filters
named `N`, the calls made for `N` are exactly one `Inherit`, passing the live
instance of the first of them (and no `Init`); when it has none, or there is
no previous generation, they are exactly one `Init` (and no `Inherit`). -/
theorem reload_calls_once (env : Env Obj Raw) (spec : Spec Raw) (prev : Option HTTPPipeline)
    (nextId : Nat) (calls : List Call) (hp1 : HTTPPipeline)
    (h : reload env spec prev nextId = (calls, .ok hp1)) (N : String)
    (hN : (hp1.runningFilters.filter (fun rf => rf.spec.Name == N)).length = 1) :
    ∃ rf ∈ hp1.runningFilters, rf.spec.Name = N ∧
      (∀ (G : HTTPPipeline) (before : List RunningFilter) (rfG : RunningFilter)
          (after : List RunningFilter),
        prev = some G → G.runningFilters = before ++ rfG :: after → rfG.spec.Name = N →
        (∀ g ∈ before, g.spec.Name ≠ N) →
        calls.filter (fun c => c.name == N) = [.Inherit rf.filter rf.spec rfG.filter]) ∧
      (∀ G : HTTPPipeline, prev = some G → (∀ g ∈ G.runningFilters, g.spec.Name ≠ N) →
        calls.filter (fun c => c.name == N) = [.Init rf.filter rf.spec]) ∧
      (prev = none → calls.filter (fun c => c.name == N) = [.Init rf.filter rf.spec]) := by
  have hcalls := reload_calls env spec prev nextId calls hp1 h
  obtain ⟨rf, hrf⟩ := List.length_eq_one.1 hN
  have hmem : rf ∈ hp1.runningFilters.filter (fun rf => rf.spec.Name == N) := by
    rw [hrf]
    exact List.mem_singleton_self rf
  obtain ⟨hmem1, hname⟩ := List.mem_filter.1 hmem
  have hname : rf.spec.Name = N := by simpa using hname
  have hfilter : calls.filter (fun c => c.name == N) = [callFor prev rf] := by
    rw [hcalls, List.filter_map]
    have hcomp : ((fun c : Call => c.name == N) ∘ callFor prev) =
        (fun rf : RunningFilter => rf.spec.Name == N) := by
      funext x
      simp [callFor_name]
    rw [hcomp, hrf]
    rfl
  refine ⟨rf, hmem1, hname, ?_, ?_, ?_⟩
  · intro G before rfG after hG hsplit hnameG hfirst
    have hget := getRunningFilter_first G N before rfG after hsplit hnameG hfirst
    rw [hfilter]
    simp [callFor, hname, prevInstance, hG, hget]
  · intro G hG hnone
    have hget := getRunningFilter_none G N hnone
    rw [hfilter]
    simp [callFor, hname, prevInstance, hG, hget]
  · intro hnone
    rw [hfilter]
    simp [callFor, hname, prevInstance, hnone]

theorem reload_calls_once_witness :
    ∃ rf ∈ [Ex.rf "A" [("stop", "B")] 1, Ex.rf "B" [] 2], rf.spec.Name = "A" ∧
      (∀ (G : HTTPPipeline) (before : List RunningFilter) (rfG : RunningFilter)
          (after : List RunningFilter),
        some Ex.generationA = some G → G.runningFilters = before ++ rfG :: after →
        rfG.spec.Name = "A" → (∀ g ∈ before, g.spec.Name ≠ "A") →
        List.filter (fun c => c.name == "A")
          [Call.Inherit ⟨1, "K"⟩ (Ex.specK "A") ⟨0, "K"⟩, Call.Init ⟨2, "K"⟩ (Ex.specK "B")] =
          [.Inherit rf.filter rf.spec rfG.filter]) ∧
      (∀ G : HTTPPipeline, some Ex.generationA = some G →
        (∀ g ∈ G.runningFilters, g.spec.Name ≠ "A") →
        List.filter (fun c => c.name == "A")
          [Call.Inherit ⟨1, "K"⟩ (Ex.specK "A") ⟨0, "K"⟩, Call.Init ⟨2, "K"⟩ (Ex.specK "B")] =
          [.Init rf.filter rf.spec]) ∧
      (some Ex.generationA = none →
        List.filter (fun c => c.name == "A")
          [Call.Inherit ⟨1, "K"⟩ (Ex.specK "A") ⟨0, "K"⟩, Call.Init ⟨2, "K"⟩ (Ex.specK "B")] =
          [.Init rf.filter rf.spec]) :=
  reload_calls_once Ex.env Ex.forwardSpec (some Ex.generationA) 1
    [.Inherit ⟨1, "K"⟩ (Ex.specK "A") ⟨0, "K"⟩, .Init ⟨2, "K"⟩ (Ex.specK "B")]
    ⟨[Ex.rf "A" [("stop", "B")] 1, Ex.rf "B" [] 2], [⟨"A", ""⟩, ⟨"B", ""⟩]⟩
    (by rfl) "A" (by decide)

end ReloadClaims

/-! ## The current-filter index around a handler-caller invocation -/

section IndexRestored

variable {σ : Type}

/-- C11: whenever an invocation of the closure `handle` returns (any token, any
nesting bound, any state it is made in, whichever branch it takes), the
closure variable `filterIndex` has the value it had immediately before the
invocation; hence a second invocation with the same token, made from the state
the first one returned in, computes its next filter index from the same
arguments as the first. -/
theorem handle_restores_filterIndex (hp : HTTPPipeline) (handleOf : Instance → Prog σ)
    (fuel : Nat) (r : String) (s : Run σ) (t : String) (s1 : Run σ)
    (h : handle hp handleOf fuel r s = .ok (t, s1)) :
    s1.filterIndex = s.filterIndex ∧
      getNextFilterIndex hp s1.filterIndex r = getNextFilterIndex hp s.filterIndex r := by
  have hidx : s1.filterIndex = s.filterIndex := by
    cases fuel with
    | zero => simp [handle] at h
    | succ fuel =>
      unfold handle at h
      cases hnext : getNextFilterIndex hp s.filterIndex r with
      | none => simp [hnext] at h
      | some next =>
        simp only [hnext] at h
        by_cases hend : next = hp.runningFilters.length
        · simp only [hend, if_true, Except.ok.injEq, Prod.mk.injEq] at h
          rw [← h.2]
        · by_cases hneg : next = -1
          · subst hneg
            rw [if_neg hend, if_pos rfl] at h
            simp only [Except.ok.injEq, Prod.mk.injEq] at h
            rw [← h.2]
          · simp only [hend, if_false, hneg] at h
            cases hget : hp.runningFilters[next.toNat]? with
            | none => simp [hget] at h
            | some filter =>
              simp only [hget] at h
              cases hrun : runProg (handle hp handleOf fuel) (handleOf filter.filter)
                  { s with
                    filterIndex := next
                    FilterStats := s.FilterStats ++
                      [⟨filter.spec.Name, filter.spec.Kind, "", 0⟩]
                    events := s.events ++
                      [.SaveReqToTemplate filter.spec.Name, .Handle filter] } with
              | error e => simp [hrun] at h
              | ok pr =>
                obtain ⟨result, s2⟩ := pr
                simp only [hrun, Except.ok.injEq, Prod.mk.injEq] at h
                rw [← h.2]
  exact ⟨hidx, by rw [hidx]⟩

theorem handle_restores_filterIndex_witness :
    handle Ex.retryPipeline Ex.callTwice 2 "" Ex.insideA = .ok ("", Ex.insideAAfterB) ∧
      Ex.insideAAfterB.filterIndex = Ex.insideA.filterIndex ∧
      getNextFilterIndex Ex.retryPipeline Ex.insideAAfterB.filterIndex "" =
        getNextFilterIndex Ex.retryPipeline Ex.insideA.filterIndex "" :=
  ⟨rfl, handle_restores_filterIndex Ex.retryPipeline Ex.callTwice 2 "" Ex.insideA ""
    Ex.insideAAfterB rfl⟩

end IndexRestored

end HTTPPipeline
